import Mathlib

/-!
Verification development for the daytape repository (src/lib.rs, src/main.rs).

The Rust code is shallowly embedded: machine integers (`usize`) become `Nat`
with the wrapping the source performs written explicitly (`% 24`, `% 60`);
`HashMap<NaiveDate, DayState>` becomes a map `Int → Option DayState` (calendar
dates are modelled as integers ordered like `NaiveDate`); Rust `String` becomes
Lean `String` (UTF-8 byte-wise comparison of Rust strings agrees with
code-point-wise comparison, which is what the label order below uses); the
mutable commit phase of the editor loop (`main.rs`, `edit`) becomes a pure
function from the pre-iteration state to the post-iteration state.
-/

namespace Daytape

/-- `Time` from src/lib.rs: a wall-clock value with `usize` fields.
No invariant is enforced by the constructors. -/
structure Time where
  hour : Nat
  min : Nat
deriving DecidableEq

namespace Time

/-- `Time::new` from src/lib.rs: stores its arguments unchanged. -/
def new (hour min : Nat) : Time := ⟨hour, min⟩

/-- `Time::hours` from src/lib.rs. -/
def hours (h : Nat) : Time := ⟨h, 0⟩

/-- `Time::mins` from src/lib.rs: `hour = mins / 60`, `min = mins % 60`. -/
def mins (m : Nat) : Time := ⟨m / 60, m % 60⟩

/-- `Time::to_grid` from src/lib.rs: `[x, y] = [min / 5, hour]`. -/
def toGrid (t : Time) : Nat × Nat := (t.min / 5, t.hour)

/-- `Time::in_mins` from src/lib.rs. -/
def inMins (t : Time) : Nat := t.hour * 60 + t.min

/-- `Time::clamp` from src/lib.rs: clamps in minutes-since-midnight space,
then rebuilds a `Time` via `Time::mins`. -/
def clamp (t lo hi : Time) : Time :=
  Time.mins (Nat.min (Nat.max lo.inMins t.inMins) hi.inMins)

/-- `impl Add for Time` from src/lib.rs: minute sum carries into the hour,
hour sum taken modulo 24. -/
def add (a b : Time) : Time :=
  let m := a.min + b.min
  let plusHours := m / 60
  ⟨(a.hour + b.hour + plusHours) % 24, m % 60⟩

/-- `impl Sub for Time` from src/lib.rs: borrow 60 minutes when needed,
hour difference biased by `+24` before `% 24`.  Written with truncated
`Nat` subtraction exactly where the source uses unsigned subtraction. -/
def sub (a b : Time) : Time :=
  let p : Nat × Nat :=
    if b.min ≤ a.min then (a.min - b.min, 0) else (a.min + 60 - b.min, 1)
  ⟨(a.hour + 24 - b.hour - p.2) % 24, p.1⟩

/-- `impl Sub for Time` with every unsigned subtraction of the source checked:
`none` models the debug-mode underflow panic of Rust.  The subtraction
`self.min - other.min` is branch-guarded in the source and cannot underflow;
the two remaining subtractions are checked here. -/
def subChecked (a b : Time) : Option Time :=
  if b.min ≤ a.min then
    if b.hour ≤ a.hour + 24 then some ⟨(a.hour + 24 - b.hour) % 24, a.min - b.min⟩
    else none
  else
    if b.min ≤ a.min + 60 then
      if b.hour + 1 ≤ a.hour + 24 then
        some ⟨(a.hour + 24 - b.hour - 1) % 24, a.min + 60 - b.min⟩
      else none
    else none

/-- The spec's normalization invariant: hour in [0,24), minute in [0,60). -/
def Normalized (t : Time) : Prop := t.hour < 24 ∧ t.min < 60

instance : DecidablePred Normalized := fun _ =>
  inferInstanceAs (Decidable (_ ∧ _))

/-- Rust's derived `PartialOrd`/`Ord` on `Time` (lexicographic on
`(hour, min)`): the `≤` test. -/
def leb (a b : Time) : Bool :=
  a.hour < b.hour || (a.hour == b.hour && a.min ≤ b.min)

/-- Rust's derived `PartialOrd`/`Ord` on `Time`: the `<` test. -/
def ltb (a b : Time) : Bool :=
  a.hour < b.hour || (a.hour == b.hour && a.min < b.min)

end Time

/-- `TimeSlot` from src/lib.rs. -/
structure TimeSlot where
  start : Time
  duration : Nat
deriving DecidableEq

namespace TimeSlot

/-- `TimeSlot::end` from src/lib.rs (named `endT`, `end` being reserved). -/
def endT (s : TimeSlot) : Time := s.start.add (Time.mins s.duration)

/-- `TimeSlot::contains` from src/lib.rs: `start <= time && time < end()`
under Rust's derived lexicographic comparison on `Time`. -/
def contains (s : TimeSlot) (t : Time) : Bool :=
  Time.leb s.start t && Time.ltb t s.endT

/-- Rust's derived `Ord` on `TimeSlot` (lexicographic on
`(start, duration)`): the `<` test. -/
def ltb (a b : TimeSlot) : Bool :=
  Time.ltb a.start b.start || (a.start == b.start && a.duration < b.duration)

end TimeSlot

/-- Wrap-aware half-open membership, modelled from the spec's words
("`contains(t)` is true iff `start <= t < end` under wrap-aware comparison,
... also works when end = start + duration wraps past midnight"), for
comparison against the source's `TimeSlot::contains`. -/
def specContains (s : TimeSlot) (t : Time) : Bool :=
  if Time.leb s.start s.endT then Time.leb s.start t && Time.ltb t s.endT
  else Time.leb s.start t || Time.ltb t s.endT

/-- `Task` from src/lib.rs. -/
structure Task where
  slot : TimeSlot
  label : String
deriving DecidableEq

/-- Lexicographic comparison of label character lists by code point; on
Rust strings this agrees with the derived byte-wise `Ord` of `String`,
since UTF-8 byte order coincides with code-point order. -/
def labelLeb : List Char → List Char → Bool
  | [], _ => true
  | _ :: _, [] => false
  | a :: as, b :: bs =>
    if a.toNat < b.toNat then true
    else if b.toNat < a.toNat then false
    else labelLeb as bs

/-- Rust's derived `Ord` on `String`, as a `≤` test on Lean strings. -/
def strLeb (a b : String) : Bool := labelLeb a.data b.data

/-- Rust's derived `Ord` on `Task` (lexicographic on `(slot, label)`,
hence on `(start, duration, label)`): the `≤` test used by
`state.tasks.sort()` in src/main.rs. -/
def Task.leb (a b : Task) : Bool :=
  TimeSlot.ltb a.slot b.slot || (a.slot == b.slot && strLeb a.label b.label)

/-- `state.tasks.sort()` from src/main.rs: a stable sort by the derived
`Ord` on `Task`. -/
def sortTasks (ts : List Task) : List Task := ts.mergeSort Task.leb

/-- Calendar dates (`chrono::NaiveDate`), modelled as integers with the
same linear order. -/
abbrev Date := Int

/-- `DayState` from src/lib.rs. -/
structure DayState where
  date : Date
  tasks : List Task
deriving DecidableEq

/-- `Schedule` from src/lib.rs: the `HashMap<NaiveDate, DayState>` is
modelled as a key-indexed map into optional day states, which captures
the key-uniqueness of the hash map. -/
def Schedule := Date → Option DayState

/-- The save step of src/main.rs (`edit`, the `if save` block), named as in
the spec: `retain(|date, _| date >= &cutoff)` followed by
`insert(date, day)`. -/
def upsert_and_prune (s : Schedule) (date : Date) (day : DayState)
    (cutoff : Date) : Schedule :=
  fun d => if d = date then some day else if cutoff ≤ d then s d else none

/-- The per-iteration command flags of the editor loop in src/main.rs,
as set by the drained input events. -/
structure Flags where
  save : Bool
  quit : Bool
  delete : Bool
  backspace : Bool
  scaleUp : Bool
  scaleDown : Bool
deriving DecidableEq

/-- The edits src/main.rs applies to the task found under the cursor:
append `typed` to the label, then backspace pops one character, then
grow adds 5 minutes, then shrink subtracts 5 minutes guarded by
`duration > 5`. -/
def applyTaskEdits (f : Flags) (typed : String) (t : Task) : Task :=
  let label := t.label ++ typed
  let label := if f.backspace then label.dropRight 1 else label
  let dur := if f.scaleUp then t.slot.duration + 5 else t.slot.duration
  let dur := if f.scaleDown && dur > 5 then dur - 5 else dur
  { slot := { t.slot with duration := dur }, label := label }

/-- The `iter_mut().find(..)` block of src/main.rs: edit the first task
whose slot contains the cursor (if any), clear `typed`, and after a resize
move the cursor to the new `end() - 5min`.  Returns the updated task list,
cursor and typed buffer. -/
def editSelected (f : Flags) (typed : String) (cursor : Time) :
    List Task → List Task × Time × String
  | [] => ([], cursor, typed)
  | t :: ts =>
    if t.slot.contains cursor then
      let t' := applyTaskEdits f typed t
      let cursor' :=
        if f.scaleUp || f.scaleDown then (t'.slot.endT).sub (Time.mins 5)
        else cursor
      (t' :: ts, cursor', "")
    else
      let r := editSelected f typed cursor ts
      (t :: r.1, r.2.1, r.2.2)

/-- The outcome of one commit phase of the editor loop. -/
structure CommitOut where
  schedule : Schedule
  saved : Option Schedule
  state : DayState
  cursor : Time
  typed : String
  quitted : Bool

/-- The commit phase of one iteration of the editor loop, translated
line-by-line from src/main.rs (`edit`): save (prune then insert, then
serialize — `saved` records what was written), then quit (returning
early), then delete, then create-if-typing-at-empty-cursor (with a
re-sort), then edit the task found under the cursor. -/
def commit (today targetDate : Date) (f : Flags) (schedule : Schedule)
    (state : DayState) (cursor : Time) (typed : String) : CommitOut :=
  let schedule :=
    if f.save then upsert_and_prune schedule targetDate state today
    else schedule
  let saved := if f.save then some schedule else none
  if f.quit then ⟨schedule, saved, state, cursor, typed, true⟩
  else
    let state :=
      if f.delete then
        { state with tasks := state.tasks.filter fun t => !(t.slot.contains cursor) }
      else state
    let createIfEmpty := !typed.isEmpty
    let state :=
      if createIfEmpty && !(state.tasks.any fun t => t.slot.contains cursor) then
        { state with tasks := sortTasks (state.tasks ++ [⟨⟨cursor, 15⟩, ""⟩]) }
      else state
    let r := editSelected f typed cursor state.tasks
    ⟨schedule, saved, { state with tasks := r.1 }, r.2.1, r.2.2, false⟩

/-- The save step of the commit phase in isolation: the schedule after the
save and the snapshot that was serialized (if any). -/
def savePhase (today targetDate : Date) (sv : Bool) (schedule : Schedule)
    (state : DayState) : Schedule × Option Schedule :=
  if sv then
    let s := upsert_and_prune schedule targetDate state today
    (s, some s)
  else (schedule, none)

/-- The delete step of the commit phase in isolation. -/
def deletePhase (del : Bool) (cursor : Time) (state : DayState) : DayState :=
  if del then
    { state with tasks := state.tasks.filter fun t => !(t.slot.contains cursor) }
  else state

/-- The create step of the commit phase in isolation. -/
def createPhase (cursor : Time) (typed : String) (state : DayState) : DayState :=
  if !typed.isEmpty && !(state.tasks.any fun t => t.slot.contains cursor) then
    { state with tasks := sortTasks (state.tasks ++ [⟨⟨cursor, 15⟩, ""⟩]) }
  else state

/-- The label-edit/resize step of the commit phase in isolation. -/
def editPhase (f : Flags) (cursor : Time) (typed : String) (state : DayState) :
    DayState × Time × String :=
  let r := editSelected f typed cursor state.tasks
  ({ state with tasks := r.1 }, r.2.1, r.2.2)

/-- The `selected_slot` lookup of src/main.rs (lines 224-228): the slot of
the first task, in list order, whose slot contains the cursor. -/
def selectedSlot (tasks : List Task) (cursor : Time) : Option TimeSlot :=
  (tasks.find? fun t => t.slot.contains cursor).map Task.slot

/-- Colors in the status-strip output of src/main.rs (`tmux`). -/
inductive StripColor where
  | colorDefault
  | alertRed
  | palette (index : Nat)
deriving DecidableEq

/-- Rust's `format!("{: <width$}", s)`: pad `s` on the right with spaces to
at least `width` characters; a longer `s` is not truncated. -/
def padRight (s : String) (w : Nat) : String :=
  s ++ String.mk (List.replicate (w - s.length) ' ')

/-- The status strip emitted by `tmux` in src/main.rs when no day state
exists for the target date: one red background segment holding
`"No task set"` padded to the requested width. -/
def noDayStrip (width : Nat) : List (StripColor × String) :=
  [(StripColor.alertRed, padRight "No task set" width)]

/-- An iteration in which only printable characters were typed: no command
fired, no backspace, no resize. -/
def typingFlags : Flags := ⟨false, false, false, false, false, false⟩

/-- An iteration in which only the shrink command fired. -/
def shrinkOnly : Flags := ⟨false, false, false, false, false, true⟩

/-- An iteration in which both the delete command and the save command
fired (event sequence drained in one loop pass). -/
def saveAndDeleteFlags : Flags := ⟨true, false, true, false, false, false⟩

/-- A concrete task used to exercise the commit phase. -/
def c1Task : Task := ⟨⟨⟨9, 0⟩, 15⟩, "standup"⟩

/-- The commit phase run on a one-task day with save and delete both
fired in the same iteration. -/
def c1Out : CommitOut :=
  commit 0 0 saveAndDeleteFlags (fun _ => none) ⟨0, [c1Task]⟩ ⟨9, 0⟩ ""

theorem Time.inMins_mins (m : Nat) : (Time.mins m).inMins = m := by
  simp only [Time.mins, Time.inMins]
  omega

theorem Time.normalized_mins (m : Nat) (h : m < 1440) :
    (Time.mins m).Normalized := by
  simp only [Time.mins, Time.Normalized]
  omega

theorem Time.normalized_add (a b : Time) : (a.add b).Normalized := by
  simp only [Time.add, Time.Normalized]
  omega

theorem Time.inMins_add (a b : Time) :
    (a.add b).inMins = (a.inMins + b.inMins) % 1440 := by
  simp only [Time.add, Time.inMins]
  omega

theorem Time.normalized_sub (a b : Time) (ha : a.Normalized)
    (hb : b.Normalized) : (a.sub b).Normalized := by
  obtain ⟨h1, h2⟩ := ha
  obtain ⟨h3, h4⟩ := hb
  rw [Time.sub]
  by_cases h : b.min ≤ a.min
  · rw [if_pos h]
    refine ⟨?_, ?_⟩
    · show (a.hour + 24 - b.hour - 0) % 24 < 24
      omega
    · show a.min - b.min < 60
      omega
  · rw [if_neg h]
    refine ⟨?_, ?_⟩
    · show (a.hour + 24 - b.hour - 1) % 24 < 24
      omega
    · show a.min + 60 - b.min < 60
      omega

theorem Time.inMins_lt_of_normalized (a : Time) (ha : a.Normalized) :
    a.inMins < 1440 := by
  obtain ⟨h1, h2⟩ := ha
  simp only [Time.inMins]
  omega

theorem Time.leb_iff (a b : Time) (ha : a.Normalized) (hb : b.Normalized) :
    Time.leb a b = true ↔ a.inMins ≤ b.inMins := by
  obtain ⟨h1, h2⟩ := ha
  obtain ⟨h3, h4⟩ := hb
  simp only [Time.leb, Time.inMins, Bool.or_eq_true, Bool.and_eq_true,
    decide_eq_true_eq, beq_iff_eq]
  omega

theorem Time.ltb_iff (a b : Time) (ha : a.Normalized) (hb : b.Normalized) :
    Time.ltb a b = true ↔ a.inMins < b.inMins := by
  obtain ⟨h1, h2⟩ := ha
  obtain ⟨h3, h4⟩ := hb
  simp only [Time.ltb, Time.inMins, Bool.or_eq_true, Bool.and_eq_true,
    decide_eq_true_eq, beq_iff_eq]
  omega

theorem TimeSlot.inMins_endT (s : TimeSlot) :
    s.endT.inMins = (s.start.inMins + s.duration) % 1440 := by
  rw [TimeSlot.endT, Time.inMins_add, Time.inMins_mins]

theorem TimeSlot.normalized_endT (s : TimeSlot) : s.endT.Normalized :=
  Time.normalized_add _ _

/-- C2: the source's `TimeSlot::contains` is not wrap-aware.  For the slot
starting at 23:50 with duration 30, whose end wraps past midnight to 00:20,
the source's `contains` rejects 23:55 while the spec's wrap-aware half-open
interval accepts it — the claimed iff fails on this input. -/
theorem C2_contains_wrap_cx :
    TimeSlot.contains ⟨⟨23, 50⟩, 30⟩ ⟨23, 55⟩ = false ∧
      specContains ⟨⟨23, 50⟩, 30⟩ ⟨23, 55⟩ = true := by decide

/-- C2 (amended): `contains(t)` is `start <= t < end()` under the plain
(non-wrap-aware) derived lexicographic comparison.  For a slot whose end
does not wrap (start + duration < 24h in minutes) this is the half-open
interval of the claim; when the end wraps to or past midnight the slot
contains no time at all.  The three concrete examples of the claim hold. -/
theorem C2_contains_plain_interval (s : TimeSlot) (t : Time)
    (hs : s.start.Normalized) (ht : t.Normalized) (hd : s.duration < 1440) :
    (s.start.inMins + s.duration < 1440 →
      (s.contains t = true ↔
        s.start.inMins ≤ t.inMins ∧ t.inMins < s.start.inMins + s.duration)) ∧
    (1440 ≤ s.start.inMins + s.duration → s.contains t = false) ∧
    TimeSlot.contains ⟨⟨9, 0⟩, 30⟩ ⟨9, 29⟩ = true ∧
    TimeSlot.contains ⟨⟨9, 0⟩, 30⟩ ⟨9, 30⟩ = false ∧
    TimeSlot.contains ⟨⟨9, 0⟩, 30⟩ ⟨8, 59⟩ = false := by
  have hend := TimeSlot.normalized_endT s
  have hvalue := TimeSlot.inMins_endT s
  have hstart := Time.inMins_lt_of_normalized s.start hs
  have htm := Time.inMins_lt_of_normalized t ht
  refine ⟨?_, ?_, by decide, by decide, by decide⟩
  · intro hnw
    rw [TimeSlot.contains, Bool.and_eq_true, Time.leb_iff _ _ hs ht,
      Time.ltb_iff _ _ ht hend, hvalue]
    omega
  · intro hw
    rw [TimeSlot.contains]
    cases hle : Time.leb s.start t with
    | false => rw [Bool.false_and]
    | true =>
      rw [Bool.true_and]
      rw [Time.leb_iff _ _ hs ht] at hle
      rw [Bool.eq_false_iff, Ne, Time.ltb_iff _ _ ht hend, hvalue]
      omega

/-- C2 witness: the amended statement applied to the claim's own concrete
slot and time. -/
theorem C2_contains_plain_interval_witness :
    (Time.inMins ⟨9, 0⟩ + 30 < 1440 →
      (TimeSlot.contains ⟨⟨9, 0⟩, 30⟩ ⟨9, 29⟩ = true ↔
        Time.inMins ⟨9, 0⟩ ≤ Time.inMins ⟨9, 29⟩ ∧
          Time.inMins ⟨9, 29⟩ < Time.inMins ⟨9, 0⟩ + 30)) ∧
    (1440 ≤ Time.inMins ⟨9, 0⟩ + 30 →
      TimeSlot.contains ⟨⟨9, 0⟩, 30⟩ ⟨9, 29⟩ = false) ∧
    TimeSlot.contains ⟨⟨9, 0⟩, 30⟩ ⟨9, 29⟩ = true ∧
    TimeSlot.contains ⟨⟨9, 0⟩, 30⟩ ⟨9, 30⟩ = false ∧
    TimeSlot.contains ⟨⟨9, 0⟩, 30⟩ ⟨8, 59⟩ = false :=
  C2_contains_plain_interval ⟨⟨9, 0⟩, 30⟩ ⟨9, 29⟩ (by decide) (by decide)
    (by decide)

/-- C3: `Time::mins` (the spec's `from_minutes`) does not normalize for
every unsigned argument: at 1440 it produces hour 24, violating
hour in [0,24). -/
theorem C3_mins_unnormalized_cx : ¬ (Time.mins 1440).Normalized := by decide

/-- C3 (amended): addition always normalizes its output; subtraction of
normalized times is normalized; clamp with a normalized upper bound is
normalized; and `from_minutes(m)` is normalized exactly for m < 1440.
`new` and `hours` store their arguments unchanged, so they normalize
nothing. -/
theorem C3_normalized_ops (a b lo hi : Time) (m : Nat)
    (ha : a.Normalized) (hb : b.Normalized) (hhi : hi.Normalized)
    (hm : m < 1440) :
    (a.add b).Normalized ∧ (a.sub b).Normalized ∧
      (a.clamp lo hi).Normalized ∧ (Time.mins m).Normalized := by
  refine ⟨Time.normalized_add a b, Time.normalized_sub a b ha hb, ?_,
    Time.normalized_mins m hm⟩
  rw [Time.clamp]
  apply Time.normalized_mins
  obtain ⟨p, q⟩ := hhi
  have hle : Nat.min (Nat.max lo.inMins a.inMins) hi.inMins ≤ hi.inMins :=
    Nat.min_le_right _ _
  have hbound : hi.inMins < 1440 := by
    simp only [Time.inMins]
    omega
  omega

/-- C3 witness: the amended statement at concrete normalized inputs. -/
theorem C3_normalized_ops_witness :
    ((Time.mk 1 30).add ⟨2, 45⟩).Normalized ∧
      ((Time.mk 1 30).sub ⟨2, 45⟩).Normalized ∧
      ((Time.mk 1 30).clamp ⟨0, 0⟩ ⟨23, 59⟩).Normalized ∧
      (Time.mins 100).Normalized :=
  C3_normalized_ops ⟨1, 30⟩ ⟨2, 45⟩ ⟨0, 0⟩ ⟨23, 59⟩ 100 (by decide)
    (by decide) (by decide) (by decide)

/-- C4: for normalized operands, the subtraction of src/lib.rs matches its
fully-underflow-checked variant (so no unsigned subtraction underflows and
no panic is possible), its result is normalized, and
Time(0,0) - Time(0,5) = Time(23,55). -/
theorem C4_sub_never_panics (a b : Time) (ha : a.Normalized)
    (hb : b.Normalized) :
    a.subChecked b = some (a.sub b) ∧ (a.sub b).Normalized ∧
      Time.sub ⟨0, 0⟩ ⟨0, 5⟩ = ⟨23, 55⟩ := by
  refine ⟨?_, Time.normalized_sub a b ha hb, by decide⟩
  obtain ⟨h1, h2⟩ := ha
  obtain ⟨h3, h4⟩ := hb
  by_cases h : b.min ≤ a.min
  · rw [Time.subChecked, if_pos h, if_pos (by omega)]
    simp [Time.sub, h]
  · rw [Time.subChecked, if_neg h, if_pos (by omega), if_pos (by omega)]
    simp [Time.sub, h]

/-- C4 witness: the claim's own concrete subtraction. -/
theorem C4_sub_never_panics_witness :
    Time.subChecked ⟨0, 0⟩ ⟨0, 5⟩ = some (Time.sub ⟨0, 0⟩ ⟨0, 5⟩) ∧
      (Time.sub ⟨0, 0⟩ ⟨0, 5⟩).Normalized ∧
      Time.sub ⟨0, 0⟩ ⟨0, 5⟩ = ⟨23, 55⟩ :=
  C4_sub_never_panics ⟨0, 0⟩ ⟨0, 5⟩ (by decide) (by decide)

/-- C5: on normalized times, subtraction inverts addition on the wrapping
24-hour clock: (t1 + t2) - t2 = t1. -/
theorem C5_sub_inverts_add (t1 t2 : Time) (h1 : t1.Normalized)
    (h2 : t2.Normalized) : (t1.add t2).sub t2 = t1 := by
  obtain ⟨a, b⟩ := t1
  obtain ⟨c, d⟩ := t2
  obtain ⟨ha, hb⟩ := h1
  obtain ⟨hc, hd⟩ := h2
  simp only [Time.Normalized] at ha hb hc hd
  simp only [Time.add, Time.sub]
  split <;> simp only [Time.mk.injEq] <;> constructor <;> omega

/-- C5 witness: the inverse law at a wrapping concrete pair. -/
theorem C5_sub_inverts_add_witness :
    ((Time.mk 23 50).add ⟨0, 30⟩).sub ⟨0, 30⟩ = ⟨23, 50⟩ :=
  C5_sub_inverts_add ⟨23, 50⟩ ⟨0, 30⟩ (by decide) (by decide)

/-- C7: `upsert_and_prune` installs `day` under `date`, drops every key
strictly before `cutoff`, and keeps every other key at or after `cutoff`
unchanged.  The claim's instance is date = cutoff = today. -/
theorem C7_upsert_and_prune_spec (s : Schedule) (day : DayState)
    (date cutoff e1 e2 : Date) (h1 : e1 < cutoff) (h2 : e1 ≠ date)
    (h3 : cutoff ≤ e2) (h4 : e2 ≠ date) :
    upsert_and_prune s date day cutoff date = some day ∧
      upsert_and_prune s date day cutoff e1 = none ∧
      upsert_and_prune s date day cutoff e2 = s e2 := by
  rw [upsert_and_prune, upsert_and_prune, upsert_and_prune]
  refine ⟨by simp, ?_, ?_⟩
  · rw [if_neg h2, if_neg (not_le.mpr h1)]
  · rw [if_neg h4, if_pos h3]

/-- C7 witness: the pruning instance with cutoff = date = today = 10,
a stale key 3 and a future key 12. -/
theorem C7_upsert_and_prune_spec_witness :
    upsert_and_prune (fun _ => some ⟨0, []⟩) 10 ⟨10, [c1Task]⟩ 10 10 =
        some ⟨10, [c1Task]⟩ ∧
      upsert_and_prune (fun _ => some ⟨0, []⟩) 10 ⟨10, [c1Task]⟩ 10 3 = none ∧
      upsert_and_prune (fun _ => some ⟨0, []⟩) 10 ⟨10, [c1Task]⟩ 10 12 =
        (fun _ => some (⟨0, []⟩ : DayState)) 12 :=
  C7_upsert_and_prune_spec (fun _ => some ⟨0, []⟩) ⟨10, [c1Task]⟩ 10 10 3 12
    (by decide) (by decide) (by decide) (by decide)

/-- C8: the shrink guard is `duration > 5` followed by `duration -= 5`, so
a task of duration 7 shrinks to 2 — below the claimed 5-minute floor.  The
claim's "for every task with any starting duration" is false. -/
theorem C8_shrink_below_floor_cx :
    (applyTaskEdits shrinkOnly "" ⟨⟨⟨9, 0⟩, 7⟩, "x"⟩).slot.duration = 2 ∧
      ¬ 5 ≤ (applyTaskEdits shrinkOnly "" ⟨⟨⟨9, 0⟩, 7⟩, "x"⟩).slot.duration := by
  decide

/-- C8 (amended): for every task whose duration is at least 5 and a
multiple of 5 — which covers every task the editor itself creates (15) and
resizes (steps of 5) — the commit-phase resize step never brings the
duration below 5, whatever combination of grow/shrink fired. -/
theorem C8_shrink_floor_on_grid (f : Flags) (ty : String) (t : Task)
    (h5 : 5 ≤ t.slot.duration) (hmul : t.slot.duration % 5 = 0) :
    5 ≤ (applyTaskEdits f ty t).slot.duration := by
  simp only [applyTaskEdits]
  generalize hX : (if f.scaleUp = true then t.slot.duration + 5
    else t.slot.duration) = X
  have hX5 : 5 ≤ X ∧ X % 5 = 0 := by
    constructor <;> rw [← hX] <;> split <;> omega
  obtain ⟨ha, hb⟩ := hX5
  split
  · rename_i h
    rw [Bool.and_eq_true, decide_eq_true_eq] at h
    omega
  · omega

/-- C8 witness: shrinking a freshly created 15-minute task keeps the
duration at or above 5. -/
theorem C8_shrink_floor_on_grid_witness :
    5 ≤ (applyTaskEdits shrinkOnly "" ⟨⟨⟨9, 0⟩, 15⟩, "x"⟩).slot.duration :=
  C8_shrink_floor_on_grid shrinkOnly "" ⟨⟨⟨9, 0⟩, 15⟩, "x"⟩ (by decide)
    (by decide)

/-- C9: at requested width 5 the missing-day strip's single segment spans
11 characters (the unclipped "No task set" text), not the requested 5:
Rust's `{: <width$}` pads but never truncates, so "spanning exactly the
full requested width" fails for widths below 11. -/
theorem C9_noday_strip_narrow_cx :
    ¬ (noDayStrip 5).map (fun p => p.2.length) = [5] ∧
      (noDayStrip 5).map (fun p => p.2.length) = [11] := by
  decide

/-- C9 (amended): for every requested width of at least 11 (the default is
48), the missing-day strip is a single alert-colored segment spanning
exactly the requested width; the missing-day case is a total function,
never an error. -/
theorem C9_noday_strip_full_width (w : Nat) (hw : 11 ≤ w) :
    (noDayStrip w).length = 1 ∧
      ∀ p ∈ noDayStrip w, p.1 = StripColor.alertRed ∧ p.2.length = w := by
  refine ⟨rfl, ?_⟩
  intro p hp
  rw [noDayStrip, List.mem_singleton] at hp
  subst hp
  refine ⟨rfl, ?_⟩
  show (padRight "No task set" w).length = w
  rw [padRight, String.length_append]
  have hrepl : (String.mk (List.replicate (w - ("No task set").length) ' ')).length
      = w - ("No task set").length := by
    rw [String.length]
    exact List.length_replicate _ _
  rw [hrepl]
  have : ("No task set").length = 11 := by decide
  omega

/-- C9 witness: the default width 48. -/
theorem C9_noday_strip_full_width_witness :
    (noDayStrip 48).length = 1 ∧
      ∀ p ∈ noDayStrip 48, p.1 = StripColor.alertRed ∧ p.2.length = 48 :=
  C9_noday_strip_full_width 48 (by decide)

/-- C1: with delete and save fired in the same iteration, the serialized
schedule still holds the task under the cursor while the in-memory day has
it deleted: the save executes before — not after — that cycle's deletion,
so the claimed commit order (delete, create, edit, then save, then quit)
is false on this input. -/
theorem C1_save_precedes_delete_cx :
    (c1Out.saved.bind fun s => s 0) = some ⟨0, [c1Task]⟩ ∧
      c1Out.state.tasks = [] := by
  decide

/-- C1 (amended): in each commit phase the effects apply in the order
save (serializing the day state as it stood at the start of the commit
phase, via upsert_and_prune), then quit (skipping every task mutation of
the cycle), then delete, then create, then label-edit/resize; a save
therefore reflects mutations of earlier cycles but never the deletions,
creations or edits of its own cycle. -/
theorem C1_commit_order (today target : Date) (f : Flags) (sch : Schedule)
    (st : DayState) (c : Time) (ty : String) :
    commit today target f sch st c ty =
      ⟨(savePhase today target f.save sch st).1,
       (savePhase today target f.save sch st).2,
       if f.quit then st
       else (editPhase f c ty (createPhase c ty (deletePhase f.delete c st))).1,
       if f.quit then c
       else (editPhase f c ty (createPhase c ty (deletePhase f.delete c st))).2.1,
       if f.quit then ty
       else (editPhase f c ty (createPhase c ty (deletePhase f.delete c st))).2.2,
       f.quit⟩ := by
  rw [commit, savePhase, deletePhase, createPhase, editPhase]
  cases hq : f.quit <;> cases hs : f.save <;> simp

theorem Time.leb_same (a : Time) : Time.leb a a = true := by
  simp [Time.leb]

theorem new_task_contains (c : Time) (hc : c.Normalized)
    (hwin : Time.leb c ⟨18, 55⟩ = true) :
    TimeSlot.contains ⟨c, 15⟩ c = true := by
  have hend : (TimeSlot.endT ⟨c, 15⟩).Normalized := TimeSlot.normalized_endT _
  have hv : (TimeSlot.endT ⟨c, 15⟩).inMins = (c.inMins + 15) % 1440 :=
    TimeSlot.inMins_endT ⟨c, 15⟩
  rw [TimeSlot.contains, Bool.and_eq_true]
  refine ⟨Time.leb_same c, ?_⟩
  show Time.ltb c (TimeSlot.endT ⟨c, 15⟩) = true
  rw [Time.ltb_iff _ _ hc hend, hv]
  rw [Time.leb_iff _ _ hc (by decide)] at hwin
  have h1135 : Time.inMins ⟨18, 55⟩ = 1135 := by decide
  rw [h1135] at hwin
  omega

theorem applyTaskEdits_typing (ty : String) (t : Task) :
    applyTaskEdits typingFlags ty t = { t with label := t.label ++ ty } := by
  simp [applyTaskEdits, typingFlags]

theorem editSelected_append (f : Flags) (ty : String) (c : Time)
    (l₁ : List Task) (t₀ : Task) (l₂ : List Task)
    (h₁ : ∀ u ∈ l₁, u.slot.contains c = false)
    (h₀ : t₀.slot.contains c = true) :
    editSelected f ty c (l₁ ++ t₀ :: l₂) =
      (l₁ ++ applyTaskEdits f ty t₀ :: l₂,
       if f.scaleUp || f.scaleDown
       then ((applyTaskEdits f ty t₀).slot.endT).sub (Time.mins 5) else c,
       "") := by
  induction l₁ with
  | nil => simp [editSelected, h₀]
  | cons a l ih =>
    have ha : a.slot.contains c = false := h₁ a (List.mem_cons_self a l)
    have ih' := ih fun u hu => h₁ u (List.mem_cons_of_mem a hu)
    simp [editSelected, ha, ih']

theorem exists_first_true (p : Task → Bool) :
    ∀ l : List Task, l.any p = true →
      ∃ l₁ t₀ l₂, l = l₁ ++ t₀ :: l₂ ∧ (∀ u ∈ l₁, p u = false) ∧
        p t₀ = true := by
  intro l hl
  induction l with
  | nil => simp at hl
  | cons a l ih =>
    by_cases hp : p a = true
    · exact ⟨[], a, l, rfl, by simp, hp⟩
    · have ha : p a = false := Bool.eq_false_iff.mpr hp
      rw [List.any_cons, ha, Bool.false_or] at hl
      obtain ⟨l₁, t₀, l₂, heq, hfa, ht⟩ := ih hl
      refine ⟨a :: l₁, t₀, l₂, by rw [heq]; rfl, ?_, ht⟩
      intro u hu
      rcases List.mem_cons.mp hu with h | h
      · rw [h]; exact ha
      · exact hfa u h

/-- C6: in a pure typing step (non-empty typed buffer, cursor inside the
clamped editing window), if no task's slot contains the cursor then the
day gains exactly one new task — start = cursor, duration 15, label the
typed text — with all other tasks unchanged up to the re-sort, and the
typed buffer is cleared; if instead a task already contains the cursor
(the first such in list order, here singled out by decomposition), that
task's label gets the typed text appended, no task is created, and the
task count is unchanged. -/
theorem C6_type_at_cursor (ts : List Task) (c : Time) (ty : String)
    (today target d : Date) (sch : Schedule)
    (hty : ty.isEmpty = false) (hc : c.Normalized)
    (hwin : Time.leb c ⟨18, 55⟩ = true) :
    ((∀ u ∈ ts, u.slot.contains c = false) →
      (commit today target typingFlags sch ⟨d, ts⟩ c ty).state.tasks.Perm
          (⟨⟨c, 15⟩, ty⟩ :: ts) ∧
        (commit today target typingFlags sch ⟨d, ts⟩ c ty).typed = "") ∧
    (∀ l₁ t₀ l₂, ts = l₁ ++ t₀ :: l₂ →
      (∀ u ∈ l₁, u.slot.contains c = false) →
      t₀.slot.contains c = true →
      (commit today target typingFlags sch ⟨d, ts⟩ c ty).state.tasks =
          l₁ ++ { t₀ with label := t₀.label ++ ty } :: l₂ ∧
        (commit today target typingFlags sch ⟨d, ts⟩ c ty).state.tasks.length
            = ts.length ∧
        (commit today target typingFlags sch ⟨d, ts⟩ c ty).typed = "") := by
  constructor
  · intro hall
    have hany : (ts.any fun t => t.slot.contains c) = false :=
      List.any_eq_false.mpr fun u hu => by simp [hall u hu]
    have hred : commit today target typingFlags sch ⟨d, ts⟩ c ty =
        ⟨sch, none,
         ⟨d, (editSelected typingFlags ty c
            (sortTasks (ts ++ [⟨⟨c, 15⟩, ""⟩]))).1⟩,
         (editSelected typingFlags ty c
            (sortTasks (ts ++ [⟨⟨c, 15⟩, ""⟩]))).2.1,
         (editSelected typingFlags ty c
            (sortTasks (ts ++ [⟨⟨c, 15⟩, ""⟩]))).2.2, false⟩ := by
      rw [commit]
      simp [typingFlags, hty, hany]
    have hperm : (sortTasks (ts ++ [⟨⟨c, 15⟩, ""⟩])).Perm
        (ts ++ [⟨⟨c, 15⟩, ""⟩]) := List.mergeSort_perm _ _
    have hcontains_new := new_task_contains c hc hwin
    have hanyS : ((sortTasks (ts ++ [⟨⟨c, 15⟩, ""⟩])).any
        fun t => t.slot.contains c) = true :=
      List.any_eq_true.mpr ⟨⟨⟨c, 15⟩, ""⟩, hperm.mem_iff.mpr (by simp),
        hcontains_new⟩
    obtain ⟨l₁, t₀, l₂, hsplit, hfa, ht₀⟩ := exists_first_true _ _ hanyS
    have ht₀mem : t₀ ∈ ts ++ [⟨⟨c, 15⟩, ""⟩] :=
      hperm.mem_iff.mp (by rw [hsplit]; simp)
    have ht₀eq : t₀ = ⟨⟨c, 15⟩, ""⟩ := by
      rcases List.mem_append.mp ht₀mem with h | h
      · rw [hall t₀ h] at ht₀
        exact absurd ht₀ (by simp)
      · simpa using h
    have hedit := editSelected_append typingFlags ty c l₁ t₀ l₂ hfa ht₀
    have hperm2 : (l₁ ++ l₂).Perm ts := by
      have h2 : (l₁ ++ t₀ :: l₂).Perm (t₀ :: (l₁ ++ l₂)) := List.perm_middle
      have h3 : (t₀ :: (l₁ ++ l₂)).Perm (t₀ :: ts) := by
        refine (h2.symm.trans (hsplit ▸ hperm)).trans ?_
        rw [ht₀eq]
        exact List.perm_append_comm
      exact h3.cons_inv
    rw [hred]
    constructor
    · show (editSelected typingFlags ty c
          (sortTasks (ts ++ [⟨⟨c, 15⟩, ""⟩]))).1.Perm _
      rw [hsplit, hedit]
      have : applyTaskEdits typingFlags ty t₀ = ⟨⟨c, 15⟩, ty⟩ := by
        rw [applyTaskEdits_typing, ht₀eq]
        simp [String.empty_append]
      rw [this]
      exact List.perm_middle.trans (hperm2.cons _)
    · show (editSelected typingFlags ty c
          (sortTasks (ts ++ [⟨⟨c, 15⟩, ""⟩]))).2.2 = ""
      rw [hsplit, hedit]
  · intro l₁ t₀ l₂ hsplit hfa ht₀
    have hany : (ts.any fun t => t.slot.contains c) = true :=
      List.any_eq_true.mpr ⟨t₀, by rw [hsplit]; simp, ht₀⟩
    have hred : commit today target typingFlags sch ⟨d, ts⟩ c ty =
        ⟨sch, none, ⟨d, (editSelected typingFlags ty c ts).1⟩,
         (editSelected typingFlags ty c ts).2.1,
         (editSelected typingFlags ty c ts).2.2, false⟩ := by
      rw [commit]
      simp [typingFlags, hty, hany]
    have hedit := editSelected_append typingFlags ty c l₁ t₀ l₂ hfa ht₀
    rw [hred]
    refine ⟨?_, ?_, ?_⟩
    · show (editSelected typingFlags ty c ts).1 = _
      rw [hsplit, hedit, applyTaskEdits_typing]
    · show (editSelected typingFlags ty c ts).1.length = ts.length
      rw [hsplit, hedit]
      simp
    · show (editSelected typingFlags ty c ts).2.2 = ""
      rw [hsplit, hedit]

/-- C6 witness: typing "meeting" at an empty 09:00 cursor yields exactly
the one new 15-minute task labelled "meeting" and clears the buffer. -/
theorem C6_type_at_cursor_witness :
    (commit 0 0 typingFlags (fun _ => none) ⟨0, []⟩ ⟨9, 0⟩
        "meeting").state.tasks.Perm [⟨⟨⟨9, 0⟩, 15⟩, "meeting"⟩] ∧
      (commit 0 0 typingFlags (fun _ => none) ⟨0, []⟩ ⟨9, 0⟩
        "meeting").typed = "" :=
  (C6_type_at_cursor [] ⟨9, 0⟩ "meeting" 0 0 0 (fun _ => none) (by decide)
    (by decide) (by decide)).1 (by simp)

theorem labelLeb_refl : ∀ l : List Char, labelLeb l l = true
  | [] => rfl
  | a :: as => by
    simp only [labelLeb]
    rw [if_neg (by omega), if_neg (by omega)]
    exact labelLeb_refl as

theorem labelLeb_total : ∀ as bs : List Char,
    labelLeb as bs = true ∨ labelLeb bs as = true
  | [], _ => Or.inl rfl
  | _ :: _, [] => Or.inr rfl
  | a :: as, b :: bs => by
    rcases Nat.lt_trichotomy a.toNat b.toNat with h | h | h
    · left
      simp only [labelLeb]
      rw [if_pos h]
    · have h1 : ¬ a.toNat < b.toNat := by omega
      have h2 : ¬ b.toNat < a.toNat := by omega
      rcases labelLeb_total as bs with hh | hh
      · left
        simp only [labelLeb]
        rw [if_neg h1, if_neg h2]
        exact hh
      · right
        simp only [labelLeb]
        rw [if_neg h2, if_neg h1]
        exact hh
    · right
      simp only [labelLeb]
      rw [if_pos h]

theorem labelLeb_trans : ∀ as bs cs : List Char, labelLeb as bs = true →
    labelLeb bs cs = true → labelLeb as cs = true
  | [], _, _, _, _ => rfl
  | _ :: _, [], _, h, _ => by simp [labelLeb] at h
  | _ :: _, _ :: _, [], _, h => by simp [labelLeb] at h
  | a :: as, b :: bs, c :: cs, h1, h2 => by
    simp only [labelLeb] at h1 h2 ⊢
    by_cases hab : a.toNat < b.toNat
    · by_cases hbc : b.toNat < c.toNat
      · rw [if_pos (by omega)]
      · by_cases hcb : c.toNat < b.toNat
        · rw [if_neg hbc, if_pos hcb] at h2
          exact absurd h2 (by simp)
        · rw [if_pos (by omega)]
    · by_cases hba : b.toNat < a.toNat
      · rw [if_neg hab, if_pos hba] at h1
        exact absurd h1 (by simp)
      · rw [if_neg hab, if_neg hba] at h1
        by_cases hbc : b.toNat < c.toNat
        · rw [if_pos (by omega)]
        · by_cases hcb : c.toNat < b.toNat
          · rw [if_neg hbc, if_pos hcb] at h2
            exact absurd h2 (by simp)
          · rw [if_neg hbc, if_neg hcb] at h2
            rw [if_neg (by omega), if_neg (by omega)]
            exact labelLeb_trans as bs cs h1 h2

theorem TimeSlot.ltb_trans (a b c : TimeSlot) (h1 : TimeSlot.ltb a b = true)
    (h2 : TimeSlot.ltb b c = true) : TimeSlot.ltb a c = true := by
  obtain ⟨⟨a1, a2⟩, a3⟩ := a
  obtain ⟨⟨b1, b2⟩, b3⟩ := b
  obtain ⟨⟨c1, c2⟩, c3⟩ := c
  simp only [TimeSlot.ltb, Time.ltb, Bool.or_eq_true, Bool.and_eq_true,
    decide_eq_true_eq, beq_iff_eq, Time.mk.injEq] at h1 h2 ⊢
  omega

theorem TimeSlot.ltb_tricho (a b : TimeSlot) :
    TimeSlot.ltb a b = true ∨ a = b ∨ TimeSlot.ltb b a = true := by
  obtain ⟨⟨a1, a2⟩, a3⟩ := a
  obtain ⟨⟨b1, b2⟩, b3⟩ := b
  simp only [TimeSlot.ltb, Time.ltb, Bool.or_eq_true, Bool.and_eq_true,
    decide_eq_true_eq, beq_iff_eq, TimeSlot.mk.injEq, Time.mk.injEq]
  omega

theorem Task.leb_self (t : Task) : Task.leb t t = true := by
  simp [Task.leb, strLeb, labelLeb_refl]

theorem Task.leb_total (a b : Task) :
    Task.leb a b = true ∨ Task.leb b a = true := by
  simp only [Task.leb, Bool.or_eq_true, Bool.and_eq_true, beq_iff_eq]
  rcases TimeSlot.ltb_tricho a.slot b.slot with h | h | h
  · exact Or.inl (Or.inl h)
  · rcases labelLeb_total a.label.data b.label.data with hh | hh
    · exact Or.inl (Or.inr ⟨h, hh⟩)
    · exact Or.inr (Or.inr ⟨h.symm, hh⟩)
  · exact Or.inr (Or.inl h)

theorem Task.leb_trans (a b c : Task) (h1 : Task.leb a b = true)
    (h2 : Task.leb b c = true) : Task.leb a c = true := by
  simp only [Task.leb, Bool.or_eq_true, Bool.and_eq_true, beq_iff_eq]
    at h1 h2 ⊢
  rcases h1 with h1 | ⟨h1e, h1l⟩
  · rcases h2 with h2 | ⟨h2e, h2l⟩
    · exact Or.inl (TimeSlot.ltb_trans _ _ _ h1 h2)
    · exact Or.inl (h2e ▸ h1)
  · rcases h2 with h2 | ⟨h2e, h2l⟩
    · exact Or.inl (h1e ▸ h2)
    · exact Or.inr ⟨h1e.trans h2e, labelLeb_trans _ _ _ h1l h2l⟩

theorem sortTasks_sorted (l : List Task) :
    List.Pairwise (fun a b => Task.leb a b = true) (sortTasks l) := by
  rw [sortTasks]
  exact List.sorted_mergeSort
    (fun a b c h1 h2 => Task.leb_trans a b c h1 h2)
    (fun a b => by rcases Task.leb_total a b with h | h <;> simp [h]) l

theorem find_first_minimal (c : Time) (ts : List Task)
    (hp : List.Pairwise (fun a b => Task.leb a b = true) ts) (t : Task)
    (ht : ts.find? (fun u => u.slot.contains c) = some t) :
    t.slot.contains c = true ∧
      ∀ u ∈ ts, u.slot.contains c = true → Task.leb t u = true := by
  induction ts with
  | nil => simp at ht
  | cons a l ih =>
    rw [List.pairwise_cons] at hp
    by_cases hpa : a.slot.contains c = true
    · simp only [List.find?_cons, hpa, Option.some.injEq] at ht
      subst ht
      refine ⟨hpa, ?_⟩
      intro u hu _
      rcases List.mem_cons.mp hu with h | h
      · rw [h]
        exact Task.leb_self _
      · exact hp.1 u h
    · have hfa : a.slot.contains c = false := Bool.eq_false_iff.mpr hpa
      simp only [List.find?_cons, hfa] at ht
      obtain ⟨h1, h2⟩ := ih hp.2 ht
      refine ⟨h1, ?_⟩
      intro u hu hcu
      rcases List.mem_cons.mp hu with h | h
      · rw [h] at hcu
        exact absurd hcu hpa
      · exact h2 u h hcu

/-- C10: on a task list sorted by the derived order — earliest start
first, ties broken by smaller duration, then by lexicographically smaller
label — the editor's selection lookup (a first-match scan, as in
`selected_slot` and the post-creation `selected_task` of src/main.rs)
returns a task containing the cursor that is least in that order among
all tasks containing the cursor; and the editor's re-sort always
produces such a sorted list. -/
theorem C10_selection_resolves_least (ts : List Task) (c : Time) (t : Task)
    (l : List Task)
    (hs : List.Pairwise (fun a b => Task.leb a b = true) ts)
    (hf : ts.find? (fun u => u.slot.contains c) = some t) :
    selectedSlot ts c = some t.slot ∧
      t.slot.contains c = true ∧
      (∀ u ∈ ts, u.slot.contains c = true → Task.leb t u = true) ∧
      List.Pairwise (fun a b => Task.leb a b = true) (sortTasks l) := by
  obtain ⟨h1, h2⟩ := find_first_minimal c ts hs t hf
  refine ⟨?_, h1, h2, sortTasks_sorted l⟩
  rw [selectedSlot, hf]
  rfl

/-- C10 witness: two overlapping tasks both containing 09:30; the lookup
resolves to the earlier-starting one. -/
theorem C10_selection_resolves_least_witness :
    selectedSlot [⟨⟨⟨9, 0⟩, 60⟩, "a"⟩, ⟨⟨⟨9, 30⟩, 15⟩, "b"⟩] ⟨9, 30⟩ =
        some ⟨⟨9, 0⟩, 60⟩ ∧
      TimeSlot.contains ⟨⟨9, 0⟩, 60⟩ ⟨9, 30⟩ = true ∧
      (∀ u ∈ [(⟨⟨⟨9, 0⟩, 60⟩, "a"⟩ : Task), ⟨⟨⟨9, 30⟩, 15⟩, "b"⟩],
        u.slot.contains ⟨9, 30⟩ = true →
          Task.leb ⟨⟨⟨9, 0⟩, 60⟩, "a"⟩ u = true) ∧
      List.Pairwise (fun a b => Task.leb a b = true) (sortTasks []) :=
  C10_selection_resolves_least [⟨⟨⟨9, 0⟩, 60⟩, "a"⟩, ⟨⟨⟨9, 30⟩, 15⟩, "b"⟩]
    ⟨9, 30⟩ ⟨⟨⟨9, 0⟩, 60⟩, "a"⟩ [] (by decide) (by decide)

end Daytape
